import Mathlib

/-!
Shallow embedding of the business-card text extractor `parseCardData`
(`src/utils/ocrProcessor.ts`) and verification of the specification claims
about it.  Strings are modelled as `List Char`; JavaScript's regular
expressions are modelled by bespoke total matchers mirroring their exact
backtracking semantics; `toLowerCase`/`toUpperCase` are modelled on the
ASCII range (all inputs of interest are ASCII).
-/

namespace ScanCard

abbrev Str := List Char

/-- JavaScript whitespace (`\s`), restricted to the ASCII range. -/
def wsCh (c : Char) : Bool :=
  c.toNat = 32 || c.toNat = 9 || c.toNat = 10 || c.toNat = 13 || c.toNat = 11 || c.toNat = 12

/-- The class `\d`. -/
def digitCh (c : Char) : Bool := 48 ≤ c.toNat && c.toNat ≤ 57

/-- The class `[A-Z]`. -/
def upperCh (c : Char) : Bool := 65 ≤ c.toNat && c.toNat ≤ 90

/-- The class `[a-z]`. -/
def lowerCh (c : Char) : Bool := 97 ≤ c.toNat && c.toNat ≤ 122

/-- The class `\w` = `[A-Za-z0-9_]`. -/
def wordCh (c : Char) : Bool := upperCh c || lowerCh c || digitCh c || c.toNat = 95

/-- ASCII model of JavaScript `toLowerCase` on a character. -/
def lowerChar (c : Char) : Char :=
  if 65 ≤ c.toNat ∧ c.toNat ≤ 90 then Char.ofNat (c.toNat + 32) else c

/-- ASCII model of JavaScript `toUpperCase` on a character. -/
def upperChar (c : Char) : Char :=
  if 97 ≤ c.toNat ∧ c.toNat ≤ 122 then Char.ofNat (c.toNat - 32) else c

def lowerStr (s : Str) : Str := s.map lowerChar

def upperStr (s : Str) : Str := s.map upperChar

/-- JavaScript `String.prototype.trim`, left part. -/
def trimL (s : Str) : Str := s.dropWhile wsCh

/-- JavaScript `String.prototype.trim`, right part. -/
def trimR (s : Str) : Str := (s.reverse.dropWhile wsCh).reverse

/-- JavaScript `String.prototype.trim`. -/
def trim (s : Str) : Str := trimR (trimL s)

/-- Model of `replace(/\s+/g, ' ')`: collapse each whitespace run to one space. -/
def collapseWs : Str → Str
  | [] => []
  | c :: rest =>
    if wsCh c then
      match collapseWs rest with
      | ' ' :: t => ' ' :: t
      | t => ' ' :: t
    else c :: collapseWs rest

/-- Normalisation of curly quotes: `replace(/['']/g, "'")`. -/
def quoteFix (c : Char) : Char :=
  if c.toNat = 8216 ∨ c.toNat = 8217 then Char.ofNat 39 else c

/-- Is `p` a prefix of `s`?  (Decidable, used for substring search.) -/
def isPrefixB : Str → Str → Bool
  | [], _ => true
  | _ :: _, [] => false
  | a :: as, b :: bs => a = b && isPrefixB as bs

/-- JavaScript `String.prototype.includes`: is `p` a substring of `s`? -/
def isSub (p : Str) : Str → Bool
  | [] => isPrefixB p []
  | s@(_ :: rest) => isPrefixB p s || isSub p rest

/-- JavaScript `String.prototype.split` with a one-character separator. -/
def splitOnCh (sep : Char) : Str → List Str
  | [] => [[]]
  | c :: rest =>
    if c = sep then [] :: splitOnCh sep rest
    else
      match splitOnCh sep rest with
      | h :: t => (c :: h) :: t
      | [] => [[c]]

/-- First-seen-order deduplication, fuel-recursive so that the kernel
can evaluate it (the fuel `l.length` always suffices: the recursion is
on a filtered, hence no longer, tail). -/
def dedupFirstF : Nat → List Str → List Str
  | 0, _ => []
  | _ + 1, [] => []
  | fuel + 1, x :: xs => x :: dedupFirstF fuel (xs.filter (fun y => decide (y ≠ x)))

/-- First-seen-order deduplication (JavaScript `Array.from(new Set(xs))`). -/
def dedupFirst (l : List Str) : List Str := dedupFirstF l.length l

/-! ### Email matcher: `/[\w.+-]+@[\w-]+\.[\w.-]+/gi`

At a given start position the pattern is deterministic: each `+`-class is
a maximal run (shorter runs always fail because the following literal is
outside the class), so matching reduces to run scanning. -/

/-- The class `[\w.+-]` (case-insensitive is automatic: `\w` has both cases). -/
def emailLocalCh (c : Char) : Bool := wordCh c || c = '.' || c = '+' || c = '-'

/-- The class `[\w-]`. -/
def wordDashCh (c : Char) : Bool := wordCh c || c = '-'

/-- The class `[\w.-]`. -/
def domTailCh (c : Char) : Bool := wordCh c || c = '.' || c = '-'

/-- Try to match the email pattern at the start of `s`; on success return
the matched text and the remaining suffix. -/
def emailAt (s : Str) : Option (Str × Str) :=
  let l := s.takeWhile emailLocalCh
  if l = [] then none
  else
    match s.dropWhile emailLocalCh with
    | '@' :: r2 =>
      let d1 := r2.takeWhile wordDashCh
      if d1 = [] then none
      else
        match r2.dropWhile wordDashCh with
        | '.' :: r4 =>
          let d2 := r4.takeWhile domTailCh
          if d2 = [] then none
          else some (l ++ '@' :: (d1 ++ '.' :: d2), r4.dropWhile domTailCh)
        | _ => none
    | _ => none

/-- Generic global scanner: repeatedly find the leftmost match of a
positional matcher `f` (which returns the matched text and the rest) and
continue after it, fuel-recursive so that the kernel can evaluate it.
The fuel `s.length` always suffices since every step strictly shortens
the input. -/
def scanAllF (f : Str → Option (Str × Str)) : Nat → Str → List Str
  | 0, _ => []
  | _ + 1, [] => []
  | fuel + 1, c :: rest =>
    match f (c :: rest) with
    | some (m, r) =>
      if r.length < (c :: rest).length then m :: scanAllF f fuel r
      else scanAllF f fuel rest
    | none => scanAllF f fuel rest

/-- All (non-overlapping, leftmost-first) email matches in `s`. -/
def scanEmails (s : Str) : List Str := scanAllF emailAt s.length s

/-! ### Website matcher: `/((https?:\/\/)?(www\.)?[\w-]+\.[\w.-]+)/gi`
(only the first match is used by the code). -/

/-- Case-insensitive literal prefix: strip `pre` (given lower-case) from `s`. -/
def stripCI (pre : Str) (s : Str) : Option Str :=
  if lowerStr (s.take pre.length) = pre then some (s.drop pre.length) else none

/-- The mandatory core `[\w-]+\.[\w.-]+`, returning the matched text. -/
def webCore (s : Str) : Option Str :=
  match s.takeWhile wordDashCh, s.dropWhile wordDashCh with
  | _ :: _, '.' :: r2 =>
    (match r2.takeWhile domTailCh with
     | [] => none
     | d2 => some (s.takeWhile wordDashCh ++ '.' :: d2))
  | _, _ => none

/-- Optional `(www\.)?` then the core, with JavaScript's greedy backtracking. -/
def webOptWWW (s : Str) : Option Str :=
  (match stripCI ('w' :: 'w' :: 'w' :: '.' :: []) s with
   | some r => (webCore r).map (fun m => s.take 4 ++ m)
   | none => none)
  |>.orElse (fun _ => webCore s)

/-- Full website pattern at the start of `s`. -/
def webAt (s : Str) : Option Str :=
  (match stripCI ("https://".toList) s with
   | some r => (webOptWWW r).map (fun m => s.take 8 ++ m)
   | none => none)
  |>.orElse (fun _ =>
    (match stripCI ("http://".toList) s with
     | some r => (webOptWWW r).map (fun m => s.take 7 ++ m)
     | none => none))
  |>.orElse (fun _ => webOptWWW s)

/-- First website match anywhere in `s` (leftmost start position). -/
def firstWeb : Str → Option Str
  | [] => none
  | c :: rest =>
    match webAt (c :: rest) with
    | some m => some m
    | none => firstWeb rest

/-! ### Company-from-website pattern: `/(?:www\.)?([\w-]+)\./i`,
capture group 1 of the first match. -/

/-- The `([\w-]+)\.` part, returning the captured group. -/
def cfwCore (s : Str) : Option Str :=
  match s.takeWhile wordDashCh, s.dropWhile wordDashCh with
  | d :: ds, '.' :: _ => some (d :: ds)
  | _, _ => none

def cfwAt (s : Str) : Option Str :=
  (match stripCI ('w' :: 'w' :: 'w' :: '.' :: []) s with
   | some r => cfwCore r
   | none => none)
  |>.orElse (fun _ => cfwCore s)

def firstCfw : Str → Option Str
  | [] => none
  | c :: rest =>
    match cfwAt (c :: rest) with
    | some m => some m
    | none => firstCfw rest

/-! ### Website-canonicalisation pattern:
`/(?:https?:\/\/)?(?:www\.)?([^\s]+)/i`, capture group 1 of the first
match. -/

/-- Group `([^\s]+)`: succeeds iff the head is non-whitespace; greedy. -/
def takeGroup (s : Str) : Option Str :=
  match s with
  | c :: _ => if wsCh c then none else some (s.takeWhile (fun d => !wsCh d))
  | [] => none

/-- Pattern `(?:www\.)?([^\s]+)` with backtracking. -/
def dmOptWWW (s : Str) : Option Str :=
  (match stripCI ('w' :: 'w' :: 'w' :: '.' :: []) s with
   | some r => takeGroup r
   | none => none)
  |>.orElse (fun _ => takeGroup s)

def dmAt (s : Str) : Option Str :=
  (match stripCI ("https://".toList) s with
   | some r => dmOptWWW r
   | none => none)
  |>.orElse (fun _ =>
    (match stripCI ("http://".toList) s with
     | some r => dmOptWWW r
     | none => none))
  |>.orElse (fun _ => dmOptWWW s)

def firstDm : Str → Option Str
  | [] => none
  | c :: rest =>
    match dmAt (c :: rest) with
    | some m => some m
    | none => firstDm rest

/-! ### Backtracking combinators for the two phone patterns.

A matcher of type `K` consumes a prefix of the input and passes the rest
to a continuation; combinators compose in continuation-passing style,
which reproduces JavaScript's ordered (greedy, leftmost) backtracking. -/

abbrev K := Str → Option Str

/-- Single character from a class. -/
def clsC (p : Char → Bool) (k : K) : K := fun s =>
  match s with
  | c :: r => if p c then k r else none
  | [] => none

/-- Optional `X?`: try with `X` first, then without (greedy option). -/
def optC (m : K → K) (k : K) : K := fun s =>
  match m k s with
  | some t => some t
  | none => k s

/-- Consume exactly `n` characters of class `p`. -/
def consumeN (p : Char → Bool) : Nat → Str → Option Str
  | 0, s => some s
  | n + 1, c :: s => if p c then consumeN p n s else none
  | _ + 1, [] => none

/-- Try to consume `j, j-1, …, lo` characters of class `p` (greedy
bounded repetition with backtracking into the continuation). -/
def repTry (p : Char → Bool) (k : K) (lo : Nat) : Nat → K
  | 0, s => if lo = 0 then k s else none
  | j + 1, s =>
    if j + 1 < lo then none
    else
      match (consumeN p (j + 1) s).bind k with
      | some t => some t
      | none => repTry p k lo j s

/-- Repetition `p{lo,hi}` (greedy). -/
def repD (p : Char → Bool) (lo hi : Nat) (k : K) : K := fun s => repTry p k lo hi s

/-- The class `[-.\s]`. -/
def sepCh (c : Char) : Bool := c = '-' || c = '.' || wsCh c

/-- The optional leading group `(\+?\d{1,4}[-.\s]?)` of the phone regex. -/
def phoneG0 (k : K) : K :=
  optC (clsC (fun c => c = '+')) (repD digitCh 1 4 (optC (clsC sepCh) k))

/-- Everything after the optional leading group:
`\(?\d{1,4}\)?[-.\s]?\d{1,4}[-.\s]?\d{1,4}[-.\s]?\d{1,9}`. -/
def phoneTail (k : K) : K :=
  optC (clsC (fun c => c = '(')) <|
  repD digitCh 1 4 <|
  optC (clsC (fun c => c = ')')) <|
  optC (clsC sepCh) <|
  repD digitCh 1 4 <|
  optC (clsC sepCh) <|
  repD digitCh 1 4 <|
  optC (clsC sepCh) <|
  repD digitCh 1 9 k

/-- The full phone pattern
`/(\+?\d{1,4}[-.\s]?)?\(?\d{1,4}\)?[-.\s]?\d{1,4}[-.\s]?\d{1,4}[-.\s]?\d{1,9}/g`
as a matcher returning the remainder after the match. -/
def phoneK : K := optC phoneG0 (phoneTail some)

/-- The class `[\d\s\-\(\)]` (fallback phone pattern's class). -/
def fbCh (c : Char) : Bool := digitCh c || wsCh c || c = '-' || c = '(' || c = ')'

/-- The fallback pattern `/[\+]?[\d\s\-\(\)]{7,20}/g`. -/
def fbK : K := optC (clsC (fun c => c = '+')) (repD fbCh 7 20 some)

/-- Wrap a continuation-style matcher as a positional matcher returning
the matched prefix and the rest. -/
def kToScan (m : K) (s : Str) : Option (Str × Str) :=
  (m s).map (fun r => (s.take (s.length - r.length), r))

/-- All (non-overlapping, leftmost-first, greedy) matches of matcher `m`. -/
def findAllK (m : K) (s : Str) : List Str := scanAllF (kToScan m) s.length s

/-! ### Static keyword configuration (verbatim from the source). -/

def desigKws : List Str :=
  ["Chairman", "Chairperson", "CEO", "Chief Executive Officer", "President",
   "COO", "Chief Operating Officer", "CFO", "Chief Financial Officer",
   "CIO", "Chief Information Officer", "CTO", "Chief Technology Officer",
   "CMO", "Chief Marketing Officer", "CHRO", "Chief Human Resources Officer",
   "CSO", "Chief Strategy Officer", "CPO", "Chief Product Officer",
   "CLO", "Chief Legal Officer", "CAO", "Chief Administrative Officer",
   "Vice President", "VP", "Director", "Senior Manager", "Manager",
   "Assistant Manager", "Team Lead", "Supervisor", "Executive", "Associate",
   "Coordinator", "Assistant", "Intern", "Trainee", "Software Engineer",
   "Senior Software Engineer", "Lead Developer", "Principal Engineer",
   "Solutions Architect", "Cloud Architect", "DevOps Engineer",
   "Data Engineer", "ML Engineer", "AI Engineer", "Data Analyst",
   "Business Analyst", "Data Scientist", "AI Researcher", "BI Developer",
   "Product Manager", "Product Owner", "Program Manager", "Scrum Master",
   "Project Manager", "IT Support Engineer", "Systems Administrator",
   "Network Engineer", "Cybersecurity Analyst", "Security Architect",
   "Plant Manager", "Production Manager", "Quality Control Officer",
   "QA/QC Engineer", "Maintenance Engineer", "Manufacturing Engineer",
   "Machine Operator", "Line Supervisor", "Process Engineer",
   "Investment Banker", "Financial Analyst", "Portfolio Manager",
   "Loan Officer", "Branch Manager", "Relationship Manager",
   "Actuary", "Underwriter", "Claims Officer", "Auditor", "Tax Consultant",
   "Sales Executive", "Sales Manager", "Business Development Manager",
   "Key Account Manager", "Area Sales Manager", "Regional Sales Manager",
   "Marketing Executive", "Digital Marketing Specialist", "SEO Specialist",
   "Brand Manager", "Content Strategist", "HR Manager", "HR Business Partner",
   "Talent Acquisition Specialist", "Recruitment Manager", "HR Generalist",
   "Employee Relations Manager", "Training & Development Manager",
   "Compensation & Benefits Analyst", "Teacher", "Lecturer", "Professor",
   "Academic Coordinator", "Principal", "Dean", "Trainer",
   "Instructional Designer", "Research Scholar", "Store Manager",
   "Retail Associate", "Cashier", "Sales Advisor", "Hotel Manager",
   "Front Desk Executive", "Chef", "Housekeeping Supervisor",
   "Travel Consultant", "Tour Guide", "Supply Chain Manager",
   "Logistics Coordinator", "Warehouse Manager", "Inventory Analyst",
   "Procurement Manager", "Fleet Manager", "Transport Supervisor",
   "Dispatcher", "Civil Engineer", "Site Engineer", "Project Engineer",
   "Architect", "Interior Designer", "Safety Officer",
   "Construction Supervisor", "Structural Engineer", "Graphic Designer",
   "UI/UX Designer", "Video Editor", "Animator", "Creative Director",
   "Copywriter", "Journalist", "Photographer", "Social Media Manager",
   "Petroleum Engineer", "Drilling Engineer", "Geologist",
   "Refinery Operator", "HSE Officer", "Pipeline Engineer",
   "Field Technician", "Officer", "Inspector", "Superintendent",
   "Director-General", "Commissioner", "Specialist", "Analyst",
   "Clerk", "Assistant", "Lawyer", "Attorney", "Legal Advisor",
   "Corporate Counsel", "Paralegal", "Legal Associate",
   "Compliance Officer"].map String.toList

def companySufs : List Str :=
  ["Inc", "LLC", "Ltd", "Corp", "Corporation", "Company", "Co", "Group",
   "Associates", "Partners", "Enterprises", "Solutions", "Technologies",
   "Tech", "Industries", "Holdings", "Ventures", "Capital"].map String.toList

def addrKws : List Str :=
  ["street", "st", "road", "rd", "avenue", "ave", "blvd", "boulevard",
   "suite", "floor", "building", "block", "sector", "area", "city", "zip",
   "pin", "code", "lane", "ln", "drive", "dr", "court", "ct", "place",
   "pl", "apartment", "apt"].map String.toList

/-! ### Sanitisers. -/

/-- The junk character set of `cleanText`
(`[!*~"'/\-\\(),.?;:#^&[\]{}|<>`=+_]`), by code point. -/
def junkCh (c : Char) : Bool :=
  [33, 42, 126, 34, 39, 47, 45, 92, 40, 41, 44, 46, 63, 59, 58,
   35, 94, 38, 91, 93, 123, 125, 124, 60, 62, 96, 61, 43, 95].contains c.toNat

/-- The junk character set of `cleanWebsite` (same minus the dot `.`). -/
def junkWebCh (c : Char) : Bool :=
  [33, 42, 126, 34, 39, 47, 45, 92, 40, 41, 44, 63, 59, 58,
   35, 94, 38, 91, 93, 123, 125, 124, 60, 62, 96, 61, 43, 95].contains c.toNat

/-- Model of `cleanText`: strip junk characters, collapse whitespace, trim. -/
def cleanText (s : Str) : Str := trim (collapseWs (s.filter (fun c => !junkCh c)))

/-- Model of `cleanWebsite`: like `cleanText` but keeps dots. -/
def cleanWebsite (s : Str) : Str := trim (collapseWs (s.filter (fun c => !junkWebCh c)))

/-! ### Field extraction. -/

/-- Model of `charAt(0).toUpperCase() + slice(1)`. -/
def capFirst : Str → Str
  | [] => []
  | c :: rest => upperChar c :: rest

/-- Model of `companyFromEmail` (with the `emailParts.length === 2` guard and the
`emailParts[1]` access of the source). -/
def cfeOf (emails : List Str) : Str :=
  match emails with
  | [] => []
  | e :: _ =>
    if (splitOnCh '@' e).length = 2 then
      if 2 ≤ (splitOnCh '.' ((splitOnCh '@' e).getD 1 [])).length then
        capFirst ((splitOnCh '.' ((splitOnCh '@' e).getD 1 [])).headD [])
      else []
    else []

/-- Model of `websiteFromEmail`. -/
def wfeOf (emails : List Str) (websiteFromText : Str) : Str :=
  match emails with
  | [] => []
  | e :: _ =>
    if (splitOnCh '@' e).length = 2 then
      if websiteFromText ≠ [] then websiteFromText
      else 'w' :: 'w' :: 'w' :: '.' :: (splitOnCh '@' e).getD 1 []
    else []

/-- Model of `companyFromWebsite`. -/
def cfwOf (websiteFromText : Str) : Str :=
  if websiteFromText = [] then []
  else
    match firstCfw websiteFromText with
    | some g => if g ≠ [] then capFirst g else []
    | none => []

/-- Model of `emailUsername`. -/
def euOf (emails : List Str) : Str :=
  match emails with
  | [] => []
  | e :: _ =>
    if isSub ['@'] e then lowerStr ((splitOnCh '@' e).headD []) else []

/-- Model of `p.replace(/[\s-]/g, '')` — used in the recurring phone-containment
checks. -/
def phoneKey (p : Str) : Str := p.filter (fun c => !(wsCh c || c = '-'))

/-- The class `[!@#$%^&*(),.?":{}|<>]` by code point. -/
def specialCh (c : Char) : Bool :=
  [33, 64, 35, 36, 37, 94, 38, 42, 40, 41, 44, 46, 63, 34, 58,
   123, 125, 124, 60, 62].contains c.toNat

/-- Fuel-recursive checker for `^[A-Z][a-z]+(\s[A-Z][a-z]+)*$`
(deterministic: runs are maximal and a shorter run always fails on the
next required class); the fuel `s.length` always suffices. -/
def titleCaseF : Nat → Str → Bool
  | 0, _ => false
  | _ + 1, [] => false
  | fuel + 1, c :: rest =>
    if upperCh c then
      match rest.takeWhile lowerCh, rest.dropWhile lowerCh with
      | _ :: _, [] => true
      | _ :: _, d :: r2 => if wsCh d then titleCaseF fuel r2 else false
      | [], _ => false
    else false

/-- Anchored `^[A-Z][a-z]+(\s[A-Z][a-z]+)*$`. -/
def titleCase (s : Str) : Bool := titleCaseF s.length s

/-- The per-line test of the `potentialNames` collection loop; `line` is
already trimmed. -/
def candPred (emails phones : List Str) (line : Str) : Bool :=
  line ≠ [] &&
  !(line.any digitCh) &&
  !(emails.any (fun e => isSub e (lowerStr line))) &&
  !(phones.any (fun p => isSub (phoneKey p) line)) &&
  !(isSub ("www.".toList) (lowerStr line) || isSub (".com".toList) (lowerStr line) ||
    isSub (".org".toList) (lowerStr line)) &&
  !(desigKws.any (fun kw => isSub (lowerStr kw) (lowerStr line))) &&
  (decide (1 ≤ (splitOnCh ' ' line).length) && decide ((splitOnCh ' ' line).length ≤ 4)) &&
  ((line = upperStr line && decide (1 < line.length)) || titleCase line) &&
  !(line.any specialCh)

/-- Model of `nameForComparison` and the email-username matching rule. -/
def nameMatchesEU (eu cand : Str) : Bool :=
  let n := (lowerStr cand).filter (fun c => !wsCh c)
  eu = n || isSub n eu || isSub eu n

/-- Model of `\b\w` capitalisation: upper-case every word-initial character. -/
def upWordInits : Str → Str :=
  go true
where
  go : Bool → Str → Str
    | _, [] => []
    | boundary, c :: rest =>
      if wordCh c then (if boundary then upperChar c else c) :: go false rest
      else c :: go true rest

/-- The name derived from the email local-part. -/
def derivedName (eu : Str) : Str :=
  trim (upWordInits (eu.map (fun c => if c = '.' then ' ' else c)))

/-- The name-selection logic (both assignments to `name`). -/
def nameOf (eu : Str) (cands : List Str) : Str :=
  if eu ≠ [] then
    match cands.find? (nameMatchesEU eu) with
    | some c => c
    | none =>
      let d := derivedName eu
      if 1 ≤ (splitOnCh ' ' d).length && (splitOnCh ' ' d).length ≤ 4 &&
         !(d.any digitCh) then d
      else []
  else []

/-- The `isAlreadyCaptured` test of the designation loop (the `company`
and `address` arguments receive the values those variables hold at that
point in the program, namely `''`). -/
def desigCaptured (nameV companyV : Str) (emails phones : List Str)
    (wfe wft addressV : Str) (line : Str) : Bool :=
  (nameV ≠ [] && isSub (lowerStr nameV) (lowerStr line)) ||
  (companyV ≠ [] && isSub (lowerStr companyV) (lowerStr line)) ||
  emails.any (fun e => isSub e (lowerStr line)) ||
  phones.any (fun p => isSub (phoneKey p) line) ||
  (wfe ≠ [] && isSub (lowerStr wfe) (lowerStr line)) ||
  (wft ≠ [] && isSub (lowerStr wft) (lowerStr line)) ||
  (addressV ≠ [] && isSub (lowerStr addressV) (lowerStr line))

/-- Per-line designation test: some keyword occurs and the line is not
already captured. -/
def desigPred (nameV companyV : Str) (emails phones : List Str)
    (wfe wft addressV : Str) (line : Str) : Bool :=
  desigKws.any (fun kw => isSub (lowerStr kw) (lowerStr line)) &&
  !desigCaptured nameV companyV emails phones wfe wft addressV line

/-- Model of `replace(/[^+\d]/g, '')` followed by the (vacuous) leading-`+`
normalisation. -/
def cleanPhoneStr (p : Str) : Str :=
  match p.filter (fun c => c = '+' || digitCh c) with
  | '+' :: t => '+' :: t
  | other => other

/-- The [7,15]-digit validity filter. -/
def validPhone (p : Str) : Bool :=
  let d := p.filter (fun c => !(c = '+'))
  7 ≤ d.length && d.length ≤ 15 && d.any digitCh

/-- Model of `cleanPhones`: primary pass over the regex matches, with the
per-line fallback scan when the primary pass yields nothing. -/
def cleanPhonesOf (phones : List Str) (lines : List Str) : List Str :=
  let primary := (phones.map cleanPhoneStr).filter validPhone
  if primary = [] then
    lines.flatMap (fun l => ((findAllK fbK l).map cleanPhoneStr).filter validPhone)
  else primary

/-- Per-line test of the text-derived company scan; `line` is already
trimmed. -/
def companyLinePred (cleanPhones emails : List Str) (line : Str) : Bool :=
  line ≠ [] &&
  !(cleanPhones.any (fun p => isSub (phoneKey p) line)) &&
  !(emails.any (fun e => isSub e (lowerStr line))) &&
  !(line.any digitCh) &&
  !(desigKws.any (fun kw => isSub (lowerStr kw) (lowerStr line))) &&
  decide (1 < line.length) &&
  ((line = upperStr line && decide (1 < line.length)) ||
   (decide (2 ≤ (splitOnCh ' ' line).length) && decide ((splitOnCh ' ' line).length ≤ 6)) ||
   companySufs.any (fun suf => isSub (lowerStr suf) (lowerStr line)))

/-- Text-derived company: first qualifying line of the logo area. -/
def companyFromLines (lines : List Str) (cleanPhones emails : List Str) : Str :=
  (((lines.take 10).map trim).find? (companyLinePred cleanPhones emails)).getD []

/-- The website canonicalisation block (`domainMatch` + `www.` check). -/
def canonWebsite (s : Str) : Str :=
  if s = [] then []
  else
    match firstDm s with
    | some g =>
      if g ≠ [] then
        if isSub ("www.".toList) s then s
        else 'w' :: 'w' :: 'w' :: '.' :: g
      else s
    | none => s

/-- Per-line test of the bottom-up address scan (on the raw line; the
code trims first, so the test trims too). -/
def addrPred (emails cleanPhones : List Str) (nameV companyV desigV webV : Str)
    (raw : Str) : Bool :=
  let line := trim raw
  !(emails.any (fun e => isSub (lowerStr e) (lowerStr line))) &&
  !(cleanPhones.any (fun p => isSub (phoneKey p) line)) &&
  !((nameV ≠ [] && isSub (lowerStr nameV) (lowerStr line)) ||
    (companyV ≠ [] && isSub (lowerStr companyV) (lowerStr line)) ||
    (desigV ≠ [] && isSub (lowerStr desigV) (lowerStr line)) ||
    (webV ≠ [] && isSub (lowerStr webV) (lowerStr line))) &&
  decide (15 < line.length) &&
  line.any digitCh &&
  (addrKws.any (fun kw => isSub kw (lowerStr line)) || isSub [','] line) &&
  !(isSub ['@'] line) &&
  !(isSub ("www".toList) line)

/-! ### The extractor. -/

/-- The output record (the seven text fields plus the pass-through image
payload; the caller-side `id` is attached outside `parseCardData`). -/
structure Card where
  name : Str
  company : Str
  designation : Str
  email : Str
  phone : Str
  website : Str
  address : Str
  imageData : Str
deriving DecidableEq, Repr

/-- Model of `normalizedText`. -/
def normTextOf (text : Str) : Str := trim ((collapseWs text).map quoteFix)

/-- Model of `lines` (split on newline, keep the lines whose trim is non-empty —
note the lines themselves are kept untrimmed, as in the source). -/
def linesOf (text : Str) : List Str :=
  (splitOnCh '\n' text).filter (fun l => decide (trim l ≠ []))

/-- Model of `emails`. -/
def emailsOf (text : Str) : List Str := (scanEmails (normTextOf text)).map lowerStr

/-- Model of `phones` (raw trimmed matches, deduplicated). -/
def phonesOf (text : Str) : List Str :=
  dedupFirst ((findAllK phoneK (normTextOf text)).map trim)

/-- Model of `websiteFromText`. -/
def wftOf (text : Str) : Str := ((firstWeb (normTextOf text)).map lowerStr).getD []

/-- Model of `potentialNames` (the candidate texts, in order; the unused
`lineIndex` component is dropped). -/
def candsOf (text : Str) : List Str :=
  (((linesOf text).take 10).map trim).filter (candPred (emailsOf text) (phonesOf text))

/-- The value of the `name` variable after the name-selection block. -/
def nameValOf (text : Str) : Str := nameOf (euOf (emailsOf text)) (candsOf text)

/-- The value of the `designation` variable after the designation loop
(at that point in the program `company` and `address` still hold `''`). -/
def desigValOf (text : Str) : Str :=
  (((linesOf text).find?
      (desigPred (nameValOf text) [] (emailsOf text) (phonesOf text)
        (wfeOf (emailsOf text) (wftOf text)) (wftOf text) [])).map trim).getD []

/-- The value of the `cleanPhones` array. -/
def cleanPhonesValOf (text : Str) : List Str :=
  cleanPhonesOf (phonesOf text) (linesOf text)

/-- The value of the `company` variable after the company block. -/
def companyValOf (text : Str) : Str :=
  if cfeOf (emailsOf text) ≠ [] then cfeOf (emailsOf text)
  else if cfwOf (wftOf text) ≠ [] then cfwOf (wftOf text)
  else companyFromLines (linesOf text) (cleanPhonesValOf text) (emailsOf text)

/-- The value of the `finalWebsite` variable after canonicalisation. -/
def finalWebOf (text : Str) : Str :=
  canonWebsite
    (if wfeOf (emailsOf text) (wftOf text) ≠ [] then wfeOf (emailsOf text) (wftOf text)
     else wftOf text)

/-- The value of the `address` variable after the bottom-up scan. -/
def addressValOf (text : Str) : Str :=
  (((linesOf text).reverse.find?
      (addrPred (emailsOf text) (cleanPhonesValOf text) (nameValOf text)
        (companyValOf text) (desigValOf text) (finalWebOf text))).map trim).getD []

/-- Shallow embedding of `parseCardData` (ocrProcessor.ts, lines
217-624), assembled from the per-stage values above in the source's
evaluation order. -/
def parseCardData (text : Str) (imageData : Str := []) : Card :=
  { name := if nameValOf text ≠ [] then cleanText (nameValOf text) else []
    company := if companyValOf text ≠ [] then cleanText (companyValOf text) else []
    designation := if desigValOf text ≠ [] then cleanText (desigValOf text) else []
    email := (emailsOf text).headD []
    phone := (cleanPhonesValOf text).headD []
    website := if finalWebOf text ≠ [] then cleanWebsite (finalWebOf text) else []
    address := if addressValOf text ≠ [] then cleanText (addressValOf text) else []
    imageData := imageData }

/-- Class of every character the phone patterns may consume after an
initial `+`. -/
def phTail (c : Char) : Bool := digitCh c || sepCh c || c = '(' || c = ')'

/-- A matcher transformer `m` only consumes characters satisfying `P`. -/
def ConsumesP (P : Char → Bool) (m : K → K) : Prop :=
  ∀ k s t, m k s = some t →
    ∃ u r, s = u ++ r ∧ (∀ c ∈ u, P c = true) ∧ k r = some t

/-- Shape of any text matched by either phone pattern: an optional
leading `+` followed only by digit/separator/parenthesis characters (in
particular no further `+`). -/
def PlusLead (m : Str) : Prop :=
  (∃ w, m = '+' :: w ∧ ∀ c ∈ w, phTail c = true) ∨ (∀ c ∈ m, phTail c = true)

/-- Predicate `digitsOk t`: 7-15 characters, all decimal digits. -/
def digitsOk (t : Str) : Bool := 7 ≤ t.length && t.length ≤ 15 && t.all digitCh

/-- The phone postcondition claimed by the specification: an optional
single leading `+` followed only by 7-15 digits, no `+` elsewhere. -/
def phoneShapeOk : Str → Bool
  | '+' :: t => digitsOk t
  | t => digitsOk t

/-- Structure of any text matched by the email pattern. -/
def EmailShape (m : Str) : Prop :=
  ∃ l d1 d2, m = l ++ '@' :: (d1 ++ '.' :: d2) ∧ l ≠ [] ∧ d1 ≠ [] ∧ d2 ≠ [] ∧
    (∀ c ∈ l, emailLocalCh c = true) ∧ (∀ c ∈ d1, wordDashCh c = true) ∧
    (∀ c ∈ d2, domTailCh c = true)

/-! ### Specification-side predicates and concrete inputs used by the
claims. -/

/-- The e-mail well-formedness pattern stated by the specification
(`^[^\s@]+@[^\s@]+\.[^\s@]+$`, plus the lower-case requirement):
no whitespace, exactly one `@`, a non-empty local part, a dot strictly
inside the domain, and no upper-case letter.  Modelled from the spec
wording, to be compared with what the code guarantees. -/
def specEmailOk (s : Str) : Bool :=
  !(s.any wsCh) && decide (s.count '@' = 1) &&
  (match splitOnCh '@' s with
   | [l, d] => decide (l ≠ []) && ((d.drop 1).dropLast.any (fun c => c = '.'))
   | _ => false) &&
  !(s.any upperCh)

/-- The Scenario A input of the specification (§8). -/
def scenarioA : Str :=
  ("JOHN DOE\nCEO\nACME CORPORATION\njohn.doe@acme.com\n" ++
   "+1 (555) 123-4567\nwww.acme.com\n123 Business Street, Suite 100").toList


/-! ### Helper lemmas: characters. -/

theorem char_eq_of_toNat_eq {c d : Char} (h : c.toNat = d.toNat) : c = d := by
  apply Char.ext
  apply UInt32.ext
  simpa [Char.toNat] using h

theorem ofNat_toNat_add32 {n : Nat} (h1 : 65 ≤ n) (h2 : n ≤ 90) :
    (Char.ofNat (n + 32)).toNat = n + 32 := by
  interval_cases n <;> decide

theorem lowerChar_toNat (c : Char) :
    (lowerChar c).toNat = if 65 ≤ c.toNat ∧ c.toNat ≤ 90 then c.toNat + 32 else c.toNat := by
  rw [lowerChar]
  split
  · next h => exact ofNat_toNat_add32 h.1 h.2
  · rfl


theorem upperCh_lowerChar (c : Char) : upperCh (lowerChar c) = false := by
  have h := lowerChar_toNat c
  unfold upperCh
  split at h <;>
  · rw [h]
    simp only [Bool.and_eq_false_iff, decide_eq_false_iff_not]
    omega

theorem wsCh_lowerChar {c : Char} (h : wsCh c = false) : wsCh (lowerChar c) = false := by
  have ht := lowerChar_toNat c
  unfold wsCh at h ⊢
  simp only [Bool.or_eq_false_iff, decide_eq_false_iff_not] at h ⊢
  split at ht <;> (rw [ht]; omega)

theorem lowerChar_ne {c : Char} {d : Char} (hd : d.toNat < 65 ∨ 122 < d.toNat)
    (h : c ≠ d) : lowerChar c ≠ d := by
  intro he
  have ht := lowerChar_toNat c
  rw [he] at ht
  split at ht
  · omega
  · exact h (char_eq_of_toNat_eq ht.symm)

/-! ### Helper lemmas: basic string operations. -/

theorem mem_dropWhile_of_mem {c : Char} {l : Str} (hc : wsCh c = false) (h : c ∈ l) :
    c ∈ l.dropWhile wsCh := by
  induction l with
  | nil => cases h
  | cons a t ih =>
    rw [List.dropWhile_cons]
    rcases List.mem_cons.mp h with rfl | hmem
    · rw [hc]; simp
    · split
      · exact ih hmem
      · exact List.mem_cons_of_mem _ hmem

theorem mem_trim {c : Char} {l : Str} (hc : wsCh c = false) (h : c ∈ l) : c ∈ trim l := by
  unfold trim trimR trimL
  have h1 : c ∈ l.dropWhile wsCh := mem_dropWhile_of_mem hc h
  have h2 : c ∈ (l.dropWhile wsCh).reverse := List.mem_reverse.mpr h1
  have h3 := mem_dropWhile_of_mem hc h2
  exact List.mem_reverse.mpr h3

theorem mem_collapseWs {c : Char} {l : Str} (hc : wsCh c = false) (h : c ∈ l) :
    c ∈ collapseWs l := by
  induction l with
  | nil => cases h
  | cons a t ih =>
    unfold collapseWs
    rcases List.mem_cons.mp h with rfl | hmem
    · rw [hc]; simp
    · split
      · have hin := ih hmem
        split
        · next heq => exact heq ▸ hin
        · exact List.mem_cons_of_mem _ hin
      · exact List.mem_cons_of_mem _ (ih hmem)

theorem mem_cleanText {c : Char} {l : Str} (hc : wsCh c = false) (hj : junkCh c = false)
    (h : c ∈ l) : c ∈ cleanText l := by
  unfold cleanText
  apply mem_trim hc
  apply mem_collapseWs hc
  rw [List.mem_filter]
  exact ⟨h, by rw [hj]; rfl⟩

theorem digit_not_junk {c : Char} (h : digitCh c = true) : junkCh c = false := by
  unfold digitCh at h
  unfold junkCh
  simp only [Bool.and_eq_true, decide_eq_true_eq] at h
  simp only [List.contains_eq_any_beq, List.any_eq_false, beq_iff_eq, List.mem_cons,
    List.not_mem_nil, or_false]
  intro x hx
  omega

theorem digit_not_ws {c : Char} (h : digitCh c = true) : wsCh c = false := by
  unfold digitCh at h
  unfold wsCh
  simp only [Bool.and_eq_true, decide_eq_true_eq] at h
  simp only [Bool.or_eq_false_iff, decide_eq_false_iff_not]
  omega

/-! ### Helper lemmas: `splitOnCh`. -/

theorem splitOnCh_not_mem {sep : Char} {a : Str} (h : sep ∉ a) : splitOnCh sep a = [a] := by
  induction a with
  | nil => rfl
  | cons c rest ih =>
    unfold splitOnCh
    have hc : ¬ c = sep := fun he => h (by rw [he]; exact List.mem_cons_self _ _)
    rw [if_neg hc]
    have := ih (fun hm => h (List.mem_cons_of_mem _ hm))
    rw [this]

theorem splitOnCh_append {sep : Char} {a b : Str} (h : sep ∉ a) :
    splitOnCh sep (a ++ sep :: b) = a :: splitOnCh sep b := by
  induction a with
  | nil => simp [splitOnCh]
  | cons c rest ih =>
    have hc : ¬ c = sep := fun he => h (by rw [he]; exact List.mem_cons_self _ _)
    have hr := ih (fun hm => h (List.mem_cons_of_mem _ hm))
    simp only [List.cons_append, splitOnCh]
    rw [if_neg hc]
    simp only [List.append_eq]
    rw [hr]

/-! ### Helper lemmas: the combinator matchers (used for the phone
invariant). -/

theorem consumes_clsC {P p : Char → Bool} (hp : ∀ c, p c = true → P c = true) :
    ConsumesP P (clsC p) := by
  intro k s t h
  cases s with
  | nil => simp [clsC] at h
  | cons c r =>
    simp only [clsC] at h
    split at h
    · next hc =>
      refine ⟨[c], r, rfl, ?_, h⟩
      intro d hd
      rcases List.mem_cons.mp hd with rfl | hdm
      · exact hp d hc
      · cases hdm
    · cases h

theorem consumes_optC {P : Char → Bool} {m : K → K} (hm : ConsumesP P m) :
    ConsumesP P (optC m) := by
  intro k s t h
  unfold optC at h
  split at h
  · next heq => exact hm k s t (heq ▸ h)
  · exact ⟨[], s, rfl, by simp, h⟩

theorem consumeN_spec {p : Char → Bool} :
    ∀ {n : Nat} {s r : Str}, consumeN p n s = some r →
      ∃ u, s = u ++ r ∧ (∀ c ∈ u, p c = true) := by
  intro n
  induction n with
  | zero =>
    intro s r h
    simp only [consumeN, Option.some.injEq] at h
    exact ⟨[], by simp [h], by simp⟩
  | succ n ih =>
    intro s r h
    cases s with
    | nil => simp [consumeN] at h
    | cons c s =>
      simp only [consumeN] at h
      split at h
      · next hc =>
        obtain ⟨u, hu, hcls⟩ := ih h
        refine ⟨c :: u, by rw [hu]; rfl, ?_⟩
        intro d hd
        rcases List.mem_cons.mp hd with rfl | hdm
        · exact hc
        · exact hcls d hdm
      · cases h

theorem repTry_spec {p : Char → Bool} {k : K} {lo : Nat} :
    ∀ {j : Nat} {s t : Str}, repTry p k lo j s = some t →
      ∃ u r, s = u ++ r ∧ (∀ c ∈ u, p c = true) ∧ k r = some t := by
  intro j
  induction j with
  | zero =>
    intro s t h
    unfold repTry at h
    split at h
    · exact ⟨[], s, rfl, by simp, h⟩
    · cases h
  | succ j ih =>
    intro s t h
    unfold repTry at h
    split at h
    · cases h
    · split at h
      · next heq =>
        rw [Option.bind_eq_some] at heq
        obtain ⟨r, hr, hk⟩ := heq
        obtain ⟨u, hu, hcls⟩ := consumeN_spec hr
        exact h ▸ ⟨u, r, hu, hcls, hk⟩
      · exact ih h

theorem consumes_repD {P p : Char → Bool} {lo hi : Nat}
    (hp : ∀ c, p c = true → P c = true) : ConsumesP P (repD p lo hi) := by
  intro k s t h
  obtain ⟨u, r, hu, hcls, hk⟩ := repTry_spec h
  exact ⟨u, r, hu, fun c hc => hp c (hcls c hc), hk⟩

theorem consumes_comp {P : Char → Bool} {m1 m2 : K → K}
    (h1 : ConsumesP P m1) (h2 : ConsumesP P m2) :
    ConsumesP P (fun k => m1 (m2 k)) := by
  intro k s t h
  obtain ⟨u1, r1, hs, hc1, hk1⟩ := h1 (m2 k) s t h
  obtain ⟨u2, r2, hr, hc2, hk2⟩ := h2 k r1 t hk1
  refine ⟨u1 ++ u2, r2, by rw [hs, hr, List.append_assoc], ?_, hk2⟩
  intro c hc
  rcases List.mem_append.mp hc with hm | hm
  · exact hc1 c hm
  · exact hc2 c hm

theorem consumes_phoneTail : ConsumesP phTail phoneTail := by
  have hd : ∀ c, digitCh c = true → phTail c = true := by
    intro c h; unfold phTail; simp only [Bool.or_eq_true]; tauto
  have hs : ∀ c, sepCh c = true → phTail c = true := by
    intro c h; unfold phTail; simp only [Bool.or_eq_true]; tauto
  have hl : ∀ c : Char, decide (c = '(') = true → phTail c = true := by
    intro c h; unfold phTail; simp only [Bool.or_eq_true]; tauto
  have hr : ∀ c : Char, decide (c = ')') = true → phTail c = true := by
    intro c h; unfold phTail; simp only [Bool.or_eq_true]; tauto
  unfold phoneTail
  exact consumes_comp (consumes_optC (consumes_clsC hl))
    (consumes_comp (consumes_repD hd)
      (consumes_comp (consumes_optC (consumes_clsC hr))
        (consumes_comp (consumes_optC (consumes_clsC hs))
          (consumes_comp (consumes_repD hd)
            (consumes_comp (consumes_optC (consumes_clsC hs))
              (consumes_comp (consumes_repD hd)
                (consumes_comp (consumes_optC (consumes_clsC hs))
                  (consumes_repD hd))))))))

theorem phoneG0_spec {k : K} {s t : Str} (h : phoneG0 k s = some t) :
    ∃ u r, s = u ++ r ∧ k r = some t ∧
      ((∃ w, u = '+' :: w ∧ ∀ c ∈ w, phTail c = true) ∨ (∀ c ∈ u, phTail c = true)) := by
  have hd : ∀ c, digitCh c = true → phTail c = true := by
    intro c hh; unfold phTail; simp only [Bool.or_eq_true]; tauto
  have hs : ∀ c, sepCh c = true → phTail c = true := by
    intro c hh; unfold phTail; simp only [Bool.or_eq_true]; tauto
  have hrest : ConsumesP phTail (fun k => repD digitCh 1 4 (optC (clsC sepCh) k)) :=
    consumes_comp (consumes_repD hd) (consumes_optC (consumes_clsC hs))
  unfold phoneG0 at h
  unfold optC at h
  split at h
  · next t0 heq =>
    rw [Option.some.injEq] at h
    subst h
    cases s with
    | nil => simp [clsC] at heq
    | cons c r0 =>
      simp only [clsC] at heq
      split at heq
      · next hc =>
        obtain ⟨u1, r, hru, hcls, hk⟩ := hrest k r0 t0 heq
        have hcp : c = '+' := of_decide_eq_true hc
        subst hcp
        exact ⟨'+' :: u1, r, by rw [hru]; rfl, hk, Or.inl ⟨u1, rfl, hcls⟩⟩
      · cases heq
  · obtain ⟨u, r, hru, hcls, hk⟩ := hrest k s t h
    exact ⟨u, r, hru, hk, Or.inr hcls⟩

theorem phoneK_spec {s r : Str} (h : phoneK s = some r) :
    ∃ u, s = u ++ r ∧ PlusLead u := by
  unfold phoneK at h
  unfold optC at h
  split at h
  · next t0 heq =>
    rw [Option.some.injEq] at h
    subst h
    obtain ⟨u1, r1, hs1, hk1, hshape⟩ := phoneG0_spec heq
    obtain ⟨u2, r2, hs2, hcls2, hk2⟩ := consumes_phoneTail some r1 t0 hk1
    rw [Option.some.injEq] at hk2
    subst hk2
    refine ⟨u1 ++ u2, by rw [hs1, hs2, List.append_assoc], ?_⟩
    rcases hshape with ⟨w, hw, hwcls⟩ | hall
    · subst hw
      refine Or.inl ⟨w ++ u2, rfl, ?_⟩
      intro c hc
      rcases List.mem_append.mp hc with hm | hm
      · exact hwcls c hm
      · exact hcls2 c hm
    · refine Or.inr ?_
      intro c hc
      rcases List.mem_append.mp hc with hm | hm
      · exact hall c hm
      · exact hcls2 c hm
  · obtain ⟨u, r2, hs2, hcls, hk⟩ := consumes_phoneTail some s r h
    rw [Option.some.injEq] at hk
    subst hk
    exact ⟨u, hs2, Or.inr hcls⟩

theorem fbK_spec {s r : Str} (h : fbK s = some r) :
    ∃ u, s = u ++ r ∧ PlusLead u := by
  have hf : ∀ c, fbCh c = true → phTail c = true := by
    intro c hc
    unfold fbCh at hc
    unfold phTail sepCh
    simp only [Bool.or_eq_true] at hc ⊢
    tauto
  unfold fbK at h
  unfold optC at h
  split at h
  · next t0 heq =>
    rw [Option.some.injEq] at h
    subst h
    cases s with
    | nil => simp [clsC] at heq
    | cons c r0 =>
      simp only [clsC] at heq
      split at heq
      · next hc =>
        obtain ⟨u, r2, hs2, hcls, hk⟩ := consumes_repD hf some r0 t0 heq
        rw [Option.some.injEq] at hk
        subst hk
        have hcp : c = '+' := of_decide_eq_true hc
        subst hcp
        exact ⟨'+' :: u, by rw [hs2]; rfl, Or.inl ⟨u, rfl, hcls⟩⟩
      · cases heq
  · obtain ⟨u, r2, hs2, hcls, hk⟩ := consumes_repD hf some s r h
    rw [Option.some.injEq] at hk
    subst hk
    exact ⟨u, hs2, Or.inr hcls⟩

/-! ### Membership through the global scanners. -/

theorem scanAllF_mem {f : Str → Option (Str × Str)} {Q : Str → Prop}
    (hf : ∀ s m r, f s = some (m, r) → Q m) :
    ∀ {fuel : Nat} {s m : Str}, m ∈ scanAllF f fuel s → Q m := by
  intro fuel
  induction fuel with
  | zero => intro s m h; simp [scanAllF] at h
  | succ fuel ih =>
    intro s m h
    cases s with
    | nil => simp [scanAllF] at h
    | cons c rest =>
      simp only [scanAllF] at h
      split at h
      · next m0 r0 heq =>
        split at h
        · rcases List.mem_cons.mp h with rfl | hm
          · exact hf _ _ _ heq
          · exact ih hm
        · exact ih h
      · exact ih h

theorem kToScan_plusLead {m : K}
    (hm : ∀ {s r : Str}, m s = some r → ∃ u, s = u ++ r ∧ PlusLead u) :
    ∀ s mt r, kToScan m s = some (mt, r) → PlusLead mt := by
  intro s mt r h
  unfold kToScan at h
  rw [Option.map_eq_some'] at h
  obtain ⟨r0, hr0, heq⟩ := h
  obtain ⟨u, hu, hpl⟩ := hm hr0
  rw [Prod.mk.injEq] at heq
  obtain ⟨hmt, _⟩ := heq
  have hlen : s.length - r0.length = u.length := by
    rw [hu, List.length_append]
    omega
  rw [← hmt, hlen, hu, List.take_left]
  exact hpl

theorem findAllK_phone_plusLead {s m : Str} (h : m ∈ findAllK phoneK s) : PlusLead m := by
  unfold findAllK at h
  exact scanAllF_mem (kToScan_plusLead (fun {s r} => phoneK_spec)) h

theorem findAllK_fb_plusLead {s m : Str} (h : m ∈ findAllK fbK s) : PlusLead m := by
  unfold findAllK at h
  exact scanAllF_mem (kToScan_plusLead (fun {s r} => fbK_spec)) h

/-! ### `PlusLead` is preserved by trimming and survives deduplication. -/

theorem trimR_front (l : Str) : trimR l <+: l := by
  unfold trimR
  rw [← List.reverse_reverse l]
  rw [List.reverse_prefix]
  rw [List.reverse_reverse l]
  exact List.dropWhile_suffix wsCh

theorem plusLead_of_all {m : Str} (h : ∀ c ∈ m, phTail c = true) : PlusLead m :=
  Or.inr h

theorem plusLead_trim {m : Str} (h : PlusLead m) : PlusLead (trim m) := by
  rcases h with ⟨w, hw, hcls⟩ | hall
  · subst hw
    unfold trim trimL
    have hplus : wsCh '+' = false := by decide
    rw [List.dropWhile_cons, hplus]
    simp only [Bool.false_eq_true, if_false]
    have hpre := trimR_front ('+' :: w)
    rcases List.prefix_cons_iff.mp hpre with hnil | ⟨t, ht, htpre⟩
    · rw [hnil]; exact Or.inr (by simp)
    · rw [ht]
      refine Or.inl ⟨t, rfl, ?_⟩
      intro c hc
      exact hcls c (htpre.subset hc)
  · refine Or.inr ?_
    intro c hc
    unfold trim at hc
    have h1 : c ∈ trimL m := (trimR_front (trimL m)).sublist.subset hc
    exact hall c ((List.dropWhile_sublist wsCh).subset h1)

theorem dedupFirstF_subset :
    ∀ {fuel : Nat} {l : List Str} {x : Str}, x ∈ dedupFirstF fuel l → x ∈ l := by
  intro fuel
  induction fuel with
  | zero => intro l x h; simp [dedupFirstF] at h
  | succ fuel ih =>
    intro l x h
    cases l with
    | nil => simp [dedupFirstF] at h
    | cons a t =>
      simp only [dedupFirstF] at h
      rcases List.mem_cons.mp h with rfl | hm
      · exact List.mem_cons_self _ _
      · exact List.mem_cons_of_mem _ (List.mem_filter.mp (ih hm)).1

theorem phonesOf_plusLead {text p : Str} (h : p ∈ phonesOf text) : PlusLead p := by
  unfold phonesOf dedupFirst at h
  have h1 := dedupFirstF_subset h
  rw [List.mem_map] at h1
  obtain ⟨m, hm, rfl⟩ := h1
  exact plusLead_trim (findAllK_phone_plusLead hm)

/-! ### Shape of a cleaned, validated phone. -/

theorem phTail_ne_plus {c : Char} (h : phTail c = true) : ¬ c = '+' := by
  intro hc
  subst hc
  simp [phTail, digitCh, sepCh, wsCh] at h

theorem digit_ne_plus {c : Char} (h : digitCh c = true) : ¬ c = '+' := by
  intro hc
  subst hc
  simp [digitCh] at h

theorem cleanPhone_shape {m : Str} (hpl : PlusLead m)
    (hv : validPhone (cleanPhoneStr m) = true) :
    phoneShapeOk (cleanPhoneStr m) = true := by
  rcases hpl with ⟨w, hw, hcls⟩ | hall
  · subst hw
    have hfw : ∀ c ∈ w, (decide (c = '+') || digitCh c) = digitCh c := by
      intro c hc
      have := phTail_ne_plus (hcls c hc)
      simp [this]
    have hfilter : List.filter (fun c => decide (c = '+') || digitCh c) ('+' :: w)
        = '+' :: w.filter digitCh := by
      rw [List.filter_cons]
      rw [if_pos (by simp)]
      rw [List.filter_congr hfw]
    have hstep : cleanPhoneStr ('+' :: w) = '+' :: w.filter digitCh := by
      unfold cleanPhoneStr
      rw [hfilter]
      rfl
    rw [hstep] at hv ⊢
    have hfd : ∀ c ∈ w.filter digitCh, (!decide (c = '+')) = true := by
      intro c hc
      have := digit_ne_plus (List.mem_filter.mp hc).2
      simp [this]
    unfold validPhone at hv
    rw [List.filter_cons] at hv
    rw [if_neg (by simp)] at hv
    rw [List.filter_eq_self.mpr hfd] at hv
    show digitsOk (w.filter digitCh) = true
    unfold digitsOk
    simp only [Bool.and_eq_true, decide_eq_true_eq] at hv ⊢
    refine ⟨⟨hv.1.1, hv.1.2⟩, ?_⟩
    rw [List.all_eq_true]
    intro c hc
    exact (List.mem_filter.mp hc).2
  · have hfw : ∀ c ∈ m, (decide (c = '+') || digitCh c) = digitCh c := by
      intro c hc
      have := phTail_ne_plus (hall c hc)
      simp [this]
    have hnp : ∀ c ∈ m.filter digitCh, (!decide (c = '+')) = true := by
      intro c hc
      have := digit_ne_plus (List.mem_filter.mp hc).2
      simp [this]
    have hstep : cleanPhoneStr m = m.filter digitCh := by
      unfold cleanPhoneStr
      rw [List.filter_congr hfw]
      split
      · next heq => exact heq.symm
      · rfl
    rw [hstep] at hv ⊢
    unfold validPhone at hv
    rw [List.filter_eq_self.mpr hnp] at hv
    unfold phoneShapeOk
    split
    · next t heq =>
      exfalso
      have hp : '+' ∈ m.filter digitCh := by rw [heq]; exact List.mem_cons_self _ _
      exact digit_ne_plus (List.mem_filter.mp hp).2 rfl
    · unfold digitsOk
      simp only [Bool.and_eq_true, decide_eq_true_eq] at hv ⊢
      refine ⟨⟨hv.1.1, hv.1.2⟩, ?_⟩
      rw [List.all_eq_true]
      intro c hc
      exact (List.mem_filter.mp hc).2

theorem cleanPhonesValOf_shape {text : Str} :
    ∀ x ∈ cleanPhonesValOf text, phoneShapeOk x = true := by
  intro x hx
  unfold cleanPhonesValOf cleanPhonesOf at hx
  simp only at hx
  split at hx
  · rw [List.mem_flatMap] at hx
    obtain ⟨l, _, hxl⟩ := hx
    rw [List.mem_filter] at hxl
    obtain ⟨hxm, hvalid⟩ := hxl
    rw [List.mem_map] at hxm
    obtain ⟨m, hm, rfl⟩ := hxm
    exact cleanPhone_shape (findAllK_fb_plusLead hm) hvalid
  · rw [List.mem_filter] at hx
    obtain ⟨hxm, hvalid⟩ := hx
    rw [List.mem_map] at hxm
    obtain ⟨m, hm, rfl⟩ := hxm
    exact cleanPhone_shape (phonesOf_plusLead hm) hvalid

theorem headD_mem {l : List Str} (h : l.headD [] ≠ []) : l.headD [] ∈ l := by
  cases l with
  | nil => simp at h
  | cons a t => exact List.mem_cons_self _ _

/-! ### Email shape. -/

theorem emailAt_shape {s m r : Str} (h : emailAt s = some (m, r)) : EmailShape m := by
  unfold emailAt at h
  simp only at h
  split at h
  · cases h
  · next hl =>
    split at h
    · next r2 heq2 =>
      split at h
      · cases h
      · next hd1 =>
        split at h
        · next r4 heq4 =>
          split at h
          · cases h
          · next hd2 =>
            rw [Option.some.injEq, Prod.mk.injEq] at h
            refine ⟨s.takeWhile emailLocalCh, r2.takeWhile wordDashCh,
              r4.takeWhile domTailCh, h.1.symm, hl, hd1, hd2, ?_, ?_, ?_⟩
            · intro c hc; exact List.mem_takeWhile_imp hc
            · intro c hc; exact List.mem_takeWhile_imp hc
            · intro c hc; exact List.mem_takeWhile_imp hc
        · cases h
    · cases h

theorem scanEmails_shape {s m : Str} (hm : m ∈ scanEmails s) : EmailShape m := by
  unfold scanEmails at hm
  exact scanAllF_mem (fun s m r h => emailAt_shape h) hm

theorem emailLocalCh_toNat {c : Char} (h : emailLocalCh c = true) :
    c.toNat = 43 ∨ c.toNat = 45 ∨ c.toNat = 46 ∨ c.toNat = 95 ∨
    (48 ≤ c.toNat ∧ c.toNat ≤ 57) ∨ (65 ≤ c.toNat ∧ c.toNat ≤ 90) ∨
    (97 ≤ c.toNat ∧ c.toNat ≤ 122) := by
  unfold emailLocalCh wordCh upperCh lowerCh digitCh at h
  simp only [Bool.or_eq_true, Bool.and_eq_true, decide_eq_true_eq, or_assoc] at h
  rcases h with h | h | h | h | h | h | h
  · tauto
  · tauto
  · tauto
  · tauto
  · subst h; tauto
  · subst h; tauto
  · subst h; tauto

theorem wordDashCh_toNat {c : Char} (h : wordDashCh c = true) :
    c.toNat = 45 ∨ c.toNat = 95 ∨
    (48 ≤ c.toNat ∧ c.toNat ≤ 57) ∨ (65 ≤ c.toNat ∧ c.toNat ≤ 90) ∨
    (97 ≤ c.toNat ∧ c.toNat ≤ 122) := by
  unfold wordDashCh wordCh upperCh lowerCh digitCh at h
  simp only [Bool.or_eq_true, Bool.and_eq_true, decide_eq_true_eq, or_assoc] at h
  rcases h with h | h | h | h | h
  · tauto
  · tauto
  · tauto
  · tauto
  · subst h; tauto

theorem wordDashCh_emailLocalCh {c : Char} (h : wordDashCh c = true) :
    emailLocalCh c = true := by
  unfold wordDashCh at h
  unfold emailLocalCh
  simp only [Bool.or_eq_true] at h ⊢
  tauto

theorem domTailCh_emailLocalCh {c : Char} (h : domTailCh c = true) :
    emailLocalCh c = true := by
  unfold domTailCh at h
  unfold emailLocalCh
  simp only [Bool.or_eq_true] at h ⊢
  tauto

/-- After lowering, a character of the email classes is neither
whitespace, nor upper-case, nor `@`. -/
theorem lowered_email_char {c : Char} (h : emailLocalCh c = true) :
    wsCh (lowerChar c) = false ∧ upperCh (lowerChar c) = false ∧ lowerChar c ≠ '@' := by
  have hn := emailLocalCh_toNat h
  have ht := lowerChar_toNat c
  refine ⟨?_, upperCh_lowerChar c, ?_⟩
  · unfold wsCh
    simp only [Bool.or_eq_false_iff, decide_eq_false_iff_not]
    rw [ht]
    split <;> omega
  · intro he
    have h64 : (lowerChar c).toNat = 64 := by rw [he]; decide
    rw [ht] at h64
    split at h64 <;> omega

/-- After lowering, a `[\w-]` character is not a dot. -/
theorem lowered_wordDash_ne_dot {c : Char} (h : wordDashCh c = true) :
    lowerChar c ≠ '.' := by
  have hn := wordDashCh_toNat h
  have ht := lowerChar_toNat c
  intro he
  have h46 : (lowerChar c).toNat = 46 := by rw [he]; decide
  rw [ht] at h46
  split at h46 <;> omega

/-- The first extracted (lower-cased) email decomposes per the email
pattern, with the class facts transported through the lowering. -/
theorem emailsOf_head_shape {text : Str} (h : emailsOf text ≠ []) :
    ∃ l d1 d2, (emailsOf text).headD [] = l ++ '@' :: (d1 ++ '.' :: d2) ∧
      l ≠ [] ∧ d1 ≠ [] ∧ d2 ≠ [] ∧
      (∀ c ∈ l ++ (d1 ++ d2),
        wsCh c = false ∧ upperCh c = false ∧ c ≠ '@') ∧
      (∀ c ∈ d1, c ≠ '.') := by
  unfold emailsOf at h ⊢
  cases hsc : scanEmails (normTextOf text) with
  | nil => rw [hsc] at h; simp at h
  | cons m rest =>
    have hm : m ∈ scanEmails (normTextOf text) := by rw [hsc]; exact List.mem_cons_self _ _
    obtain ⟨l0, d10, d20, hdec, hl0, hd10, hd20, hcl, hcd1, hcd2⟩ := scanEmails_shape hm
    simp only [List.map_cons, List.headD_cons]
    refine ⟨lowerStr l0, lowerStr d10, lowerStr d20, ?_, ?_, ?_, ?_, ?_, ?_⟩
    · rw [hdec]
      unfold lowerStr
      simp only [List.map_append, List.map_cons]
      rw [show lowerChar '@' = '@' from by decide, show lowerChar '.' = '.' from by decide]
    · simp only [lowerStr, ne_eq, List.map_eq_nil_iff]; exact hl0
    · simp only [lowerStr, ne_eq, List.map_eq_nil_iff]; exact hd10
    · simp only [lowerStr, ne_eq, List.map_eq_nil_iff]; exact hd20
    · intro c hc
      rcases List.mem_append.mp hc with hc | hc
      · unfold lowerStr at hc
        rw [List.mem_map] at hc
        obtain ⟨c0, hc0, rfl⟩ := hc
        exact lowered_email_char (hcl c0 hc0)
      · rcases List.mem_append.mp hc with hc | hc
        · unfold lowerStr at hc
          rw [List.mem_map] at hc
          obtain ⟨c0, hc0, rfl⟩ := hc
          exact lowered_email_char (wordDashCh_emailLocalCh (hcd1 c0 hc0))
        · unfold lowerStr at hc
          rw [List.mem_map] at hc
          obtain ⟨c0, hc0, rfl⟩ := hc
          exact lowered_email_char (domTailCh_emailLocalCh (hcd2 c0 hc0))
    · intro c hc
      unfold lowerStr at hc
      rw [List.mem_map] at hc
      obtain ⟨c0, hc0, rfl⟩ := hc
      exact lowered_wordDash_ne_dot (hcd1 c0 hc0)

/-! ### Small helpers for the claim proofs. -/

theorem nameValOf_empty {text : Str} (h : emailsOf text = []) : nameValOf text = [] := by
  unfold nameValOf euOf nameOf
  rw [h]
  simp

/-- Claim C2, evaluation at the Scenario A input: the code returns
name "John Doe" (derived from the email local-part, because the dot in
"john.doe" prevents the on-card match with "JOHN DOE") and website
"www.john.doe" (the website regex's first match in the normalised text
is the email's "john.doe"), while designation, company, email, phone and
address are as the claim expects.  The claimed name "JOHN DOE" (or its
sanitised variant) and website "www.acme.com" are contradicted. -/
theorem claimC2Theorem :
    parseCardData scenarioA =
      { name := "John Doe".toList, company := "Acme".toList,
        designation := "CEO".toList, email := "john.doe@acme.com".toList,
        phone := "+15551234567".toList, website := "www.john.doe".toList,
        address := "123 Business Street Suite 100".toList, imageData := [] } ∧
    (parseCardData scenarioA).website ≠ "www.acme.com".toList ∧
    (parseCardData scenarioA).name ≠ cleanText ("JOHN DOE".toList) ∧
    (parseCardData scenarioA).name ≠ "JOHN DOE".toList := by decide

/-- Claim C3: `parseCardData` is a total function (by construction in
this embedding), and on the empty input every one of the seven text
fields is the empty string. -/
theorem claimC3Theorem :
    (parseCardData []).name = [] ∧ (parseCardData []).company = [] ∧
    (parseCardData []).designation = [] ∧ (parseCardData []).email = [] ∧
    (parseCardData []).phone = [] ∧ (parseCardData []).website = [] ∧
    (parseCardData []).address = [] := by decide

/-- Claim C4: whenever the returned phone is non-empty it consists of an
optional single leading `+` followed only by decimal digits (no other
`+`), with between 7 and 15 digits — both for phones from the primary
regex pass and for phones from the per-line fallback pass. -/
theorem claimC4Theorem (text img : Str) (h : (parseCardData text img).phone ≠ []) :
    phoneShapeOk ((parseCardData text img).phone) = true := by
  have hm : (cleanPhonesValOf text).headD [] ∈ cleanPhonesValOf text := headD_mem h
  exact cleanPhonesValOf_shape _ hm

/-- Claim C4, witness: the input "call 5551234 now" yields the non-empty
phone "5551234", which satisfies the phone shape. -/
theorem claimC4Witness :
    (parseCardData ("call 5551234 now".toList)).phone ≠ [] ∧
    phoneShapeOk ((parseCardData ("call 5551234 now".toList)).phone) = true :=
  ⟨by decide, claimC4Theorem ("call 5551234 now".toList) [] (by decide)⟩

/-- Claim C5, evaluation at the failing input "http://www.x.com": the
matched website keeps its protocol prefix (it already contains "www.",
so canonicalisation leaves it alone), and `cleanWebsite` then strips the
":" and "/" characters, producing "httpwww.x.com" — a non-empty website
that does not start with "www.", contradicting the claimed invariant
(and the code's own comment "Always ensure website starts with www."). -/
theorem claimC5Theorem :
    (parseCardData ("http://www.x.com".toList)).website = "httpwww.x.com".toList ∧
    (parseCardData ("http://www.x.com".toList)).website ≠ [] ∧
    isPrefixB ("www.".toList) ((parseCardData ("http://www.x.com".toList)).website)
      = false := by decide

/-- Claim C6: whenever the returned email is non-empty it matches the
specification pattern `^[^\s@]+@[^\s@]+\.[^\s@]+$` and contains no
upper-case letter. -/
theorem claimC6Theorem (text img : Str) (h : (parseCardData text img).email ≠ []) :
    specEmailOk ((parseCardData text img).email) = true := by
  have hne : emailsOf text ≠ [] := by
    intro he
    apply h
    show (emailsOf text).headD [] = []
    rw [he]
    rfl
  obtain ⟨l, d1, d2, hdec, hl, hd1, hd2, hcls, hdot⟩ := emailsOf_head_shape hne
  show specEmailOk ((emailsOf text).headD []) = true
  rw [hdec]
  have hwl : ∀ c ∈ l, wsCh c = false :=
    fun c hc => (hcls c (List.mem_append.mpr (Or.inl hc))).1
  have hwd1 : ∀ c ∈ d1, wsCh c = false :=
    fun c hc => (hcls c (List.mem_append.mpr (Or.inr (List.mem_append.mpr (Or.inl hc))))).1
  have hwd2 : ∀ c ∈ d2, wsCh c = false :=
    fun c hc => (hcls c (List.mem_append.mpr (Or.inr (List.mem_append.mpr (Or.inr hc))))).1
  have hul : ∀ c ∈ l, upperCh c = false :=
    fun c hc => (hcls c (List.mem_append.mpr (Or.inl hc))).2.1
  have hud1 : ∀ c ∈ d1, upperCh c = false :=
    fun c hc => (hcls c (List.mem_append.mpr (Or.inr (List.mem_append.mpr (Or.inl hc))))).2.1
  have hud2 : ∀ c ∈ d2, upperCh c = false :=
    fun c hc => (hcls c (List.mem_append.mpr (Or.inr (List.mem_append.mpr (Or.inr hc))))).2.1
  have hal : ('@' : Char) ∉ l :=
    fun hm => (hcls '@' (List.mem_append.mpr (Or.inl hm))).2.2 rfl
  have had1 : ('@' : Char) ∉ d1 :=
    fun hm => (hcls '@' (List.mem_append.mpr (Or.inr (List.mem_append.mpr (Or.inl hm))))).2.2 rfl
  have had2 : ('@' : Char) ∉ d2 :=
    fun hm => (hcls '@' (List.mem_append.mpr (Or.inr (List.mem_append.mpr (Or.inr hm))))).2.2 rfl
  have hnotat : ('@' : Char) ∉ d1 ++ '.' :: d2 := by
    intro hm
    rcases List.mem_append.mp hm with hm | hm
    · exact had1 hm
    · rcases List.mem_cons.mp hm with heq | hm
      · exact absurd heq (by decide)
      · exact had2 hm
  unfold specEmailOk
  rw [splitOnCh_append hal, splitOnCh_not_mem hnotat]
  have hanyws : (l ++ '@' :: (d1 ++ '.' :: d2)).any wsCh = false := by
    rw [List.any_eq_false]
    intro c hc
    rcases List.mem_append.mp hc with hc | hc
    · simp [hwl c hc]
    · rcases List.mem_cons.mp hc with rfl | hc
      · decide
      · rcases List.mem_append.mp hc with hc | hc
        · simp [hwd1 c hc]
        · rcases List.mem_cons.mp hc with rfl | hc
          · decide
          · simp [hwd2 c hc]
  have hanyup : (l ++ '@' :: (d1 ++ '.' :: d2)).any upperCh = false := by
    rw [List.any_eq_false]
    intro c hc
    rcases List.mem_append.mp hc with hc | hc
    · simp [hul c hc]
    · rcases List.mem_cons.mp hc with rfl | hc
      · decide
      · rcases List.mem_append.mp hc with hc | hc
        · simp [hud1 c hc]
        · rcases List.mem_cons.mp hc with rfl | hc
          · decide
          · simp [hud2 c hc]
  have hcount : (l ++ '@' :: (d1 ++ '.' :: d2)).count '@' = 1 := by
    rw [List.count_append, List.count_cons_self, List.count_append,
      List.count_cons_of_ne (by decide), List.count_eq_zero.mpr hal,
      List.count_eq_zero.mpr had1, List.count_eq_zero.mpr had2]
  have hdotin : ((d1 ++ '.' :: d2).drop 1).dropLast.any (fun c => decide (c = '.')) = true := by
    cases d1 with
    | nil => exact absurd rfl hd1
    | cons x xs =>
      rw [List.cons_append, List.drop_succ_cons, List.drop_zero,
        List.dropLast_append_cons, List.dropLast_cons_of_ne_nil hd2]
      rw [List.any_eq_true]
      exact ⟨'.', List.mem_append.mpr (Or.inr (List.mem_cons_self _ _)), by decide⟩
  simp only [Bool.and_eq_true]
  refine ⟨⟨⟨?_, ?_⟩, ?_⟩, ?_⟩
  · rw [hanyws]; rfl
  · simp [hcount]
  · exact ⟨by simp [hl], hdotin⟩
  · rw [hanyup]; rfl

/-- Claim C6, witness: the input "a@b.c" yields the non-empty email
"a\@b.c", which satisfies the specification pattern. -/
theorem claimC6Witness :
    (parseCardData ("a@b.c".toList)).email ≠ [] ∧
    specEmailOk ((parseCardData ("a@b.c".toList)).email) = true :=
  ⟨by decide, claimC6Theorem ("a@b.c".toList) [] (by decide)⟩

/-- Claim C8, counterexample: on the input "no1, no2, no3 aaaa" the
accepted address line qualifies through its commas, but the final
sanitisation pass removes all commas, so the returned address
"no1 no2 no3 aaaa" is non-empty yet contains neither a comma nor any
address keyword — the claimed postcondition fails on the final string. -/
theorem claimC8Counterexample :
    (parseCardData ("no1, no2, no3 aaaa".toList)).address = "no1 no2 no3 aaaa".toList ∧
    isSub [','] ((parseCardData ("no1, no2, no3 aaaa".toList)).address) = false ∧
    addrKws.all
      (fun kw => !(isSub kw (lowerStr ((parseCardData ("no1, no2, no3 aaaa".toList)).address))))
      = true := by decide

/-- Claim C8, amended: the digit requirement does hold on the final
returned string, but the comma-or-keyword acceptance test is applied to
the selected line BEFORE sanitisation (which strips commas): a non-empty
address contains at least one digit, and comes from a line of the input
whose trimmed form is longer than 15 characters, contains a digit, and
contains a comma or an address keyword. -/
theorem claimC8Theorem (text img : Str) (h : (parseCardData text img).address ≠ []) :
    ((parseCardData text img).address.any digitCh = true) ∧
    ∃ raw, raw ∈ linesOf text ∧
      (parseCardData text img).address = cleanText (trim raw) ∧
      15 < (trim raw).length ∧ (trim raw).any digitCh = true ∧
      (addrKws.any (fun kw => isSub kw (lowerStr (trim raw))) || isSub [','] (trim raw))
        = true := by
  have hv : addressValOf text ≠ [] := by
    intro he
    apply h
    show (if addressValOf text ≠ [] then cleanText (addressValOf text) else []) = []
    rw [he]
    simp
  obtain ⟨raw, hfind⟩ : ∃ raw,
      (linesOf text).reverse.find?
        (addrPred (emailsOf text) (cleanPhonesValOf text) (nameValOf text)
          (companyValOf text) (desigValOf text) (finalWebOf text)) = some raw := by
    unfold addressValOf at hv
    cases hf : (linesOf text).reverse.find?
        (addrPred (emailsOf text) (cleanPhonesValOf text) (nameValOf text)
          (companyValOf text) (desigValOf text) (finalWebOf text)) with
    | none => rw [hf] at hv; simp at hv
    | some raw => exact ⟨raw, rfl⟩
  have hval : addressValOf text = trim raw := by
    unfold addressValOf
    rw [hfind]
    rfl
  have hp := List.find?_some hfind
  simp only [addrPred, Bool.and_eq_true] at hp
  obtain ⟨⟨⟨⟨⟨⟨⟨_, _⟩, _⟩, hlen⟩, hdig⟩, hkw⟩, _⟩, _⟩ := hp
  have hfield : (parseCardData text img).address = cleanText (trim raw) := by
    show (if addressValOf text ≠ [] then cleanText (addressValOf text) else [])
        = cleanText (trim raw)
    rw [hval] at hv ⊢
    rw [if_pos hv]
  constructor
  · rw [hfield]
    obtain ⟨c, hcmem, hcdig⟩ := List.any_eq_true.mp hdig
    rw [List.any_eq_true]
    exact ⟨c, mem_cleanText (digit_not_ws hcdig) (digit_not_junk hcdig) hcmem, hcdig⟩
  · refine ⟨raw, List.mem_reverse.mp (List.mem_of_find?_eq_some hfind), hfield, ?_, hdig, hkw⟩
    simpa using hlen

/-- Claim C8, witness for the amended theorem: the input
"123 Alpha Street Beta" yields a non-empty address with a digit. -/
theorem claimC8Witness :
    (parseCardData ("123 Alpha Street Beta".toList)).address ≠ [] ∧
    (parseCardData ("123 Alpha Street Beta".toList)).address.any digitCh = true :=
  ⟨by decide, (claimC8Theorem ("123 Alpha Street Beta".toList) [] (by decide)).1⟩

/-- Claim C9, evaluation at the failing input "x@acme.com" /
"Acme Manager": the designation loop runs before the company variable is
assigned (it is still the empty string there), so its company-exclusion
check never fires; the keyword line "Acme Manager" is returned as the
designation even though it contains the resolved company "Acme" —
contradicting the claim (and the code's own comment "Ensure this line is
not already captured as name, company, ..."). -/
theorem claimC9Theorem :
    (parseCardData ("x@acme.com\nAcme Manager".toList)).designation
      = "Acme Manager".toList ∧
    (parseCardData ("x@acme.com\nAcme Manager".toList)).company = "Acme".toList ∧
    isSub (lowerStr ("Acme".toList)) (lowerStr ("Acme Manager".toList)) = true ∧
    desigKws.any (fun kw => isSub (lowerStr kw) (lowerStr ("Acme Manager".toList)))
      = true := by decide

/-- Claim C10: when the email regex finds no match in the input, the
returned name is the empty string — both name-assignment paths require
an email username. -/
theorem claimC10Theorem (text img : Str) (h : emailsOf text = []) :
    (parseCardData text img).name = [] := by
  show (if nameValOf text ≠ [] then cleanText (nameValOf text) else []) = []
  rw [nameValOf_empty h]
  simp

/-- Claim C10, witness: the input "John Doe" has no email and an empty
name (despite containing a line that passes every name shape rule,
cf. the C1 counterexample). -/
theorem claimC10Witness :
    emailsOf ("John Doe".toList) = [] ∧ (parseCardData ("John Doe".toList)).name = [] :=
  ⟨by decide, claimC10Theorem ("John Doe".toList) [] (by decide)⟩

end ScanCard
